import Mathlib

/-!
Verification of the account-hierarchy balance aggregation of
`gnucash_financial_dashboard` (`plotting.py`, `plot_accounts_sunburst` /
`aggregate_balance_for_guid`).

The embedding models the `account_balances` dataframe as a `List Account`,
where a row's `amount` column is `Option Int` (`none` models pandas `NaN`,
i.e. an unknown balance) and `parent` is `Option Nat` (`none` models the
empty-string sentinel the code writes for the root's `parent_guid`).
Monetary values are modelled as exact integers; no claim depends on
floating-point rounding and the spec's numeric-semantics section mandates
exact arithmetic.

Correspondence to the source:
  * `getAmount st g`  — `account_balances[account_balances.account_guid == guid].amount.iloc[0]`
    (the first row with that guid; `none` both when the cell is NaN and
    when no row exists — in the source the latter raises `IndexError`,
    but every call site passes a guid present in the table: the root guid
    comes from a row of the table and child guids come from rows of the
    table, so the two readings agree on all executions).
  * `children st g`   — `account_balances[account_balances.parent_guid == guid]`
  * `sumAmounts l`    — `l.amount.sum()` (pandas skips NaN and returns 0
    for an empty or all-NaN column, hence `filterMap`).
  * `setAmount st g v`— `account_balances.loc[account_balances.account_guid == guid, "amount"] = v`
  * `aggregate`       — `aggregate_balance_for_guid`, with a fuel argument
    making the (in Python unbounded) recursion structurally total; all
    theorems about complete runs quantify over sufficiently large fuel.
  * `rootCandidates`  — `account_balances[~account_balances.parent_guid.isin(account_balances.account_guid)]`
  * `runAggregation`  — the aggregation part of `plot_accounts_sunburst`:
    pick the first root candidate (`.iloc[0]`; empty selection raises,
    modelled `TreeError.noRoot`), blank its parent, aggregate from it,
    then `assert not account_balances.amount.isna().any()` (a failing
    assert is modelled `TreeError.unresolved`). The spec's §7 groups both
    failures under `TreeIntegrityError`.
-/

structure Account where
  guid : Nat
  parent : Option Nat
  amount : Option Int
deriving DecidableEq, Repr

def guids (st : List Account) : List Nat := st.map (fun a => a.guid)

def shape (st : List Account) : List (Nat × Option Nat) :=
  st.map (fun a => (a.guid, a.parent))

def findAcct (st : List Account) (g : Nat) : Option Account :=
  st.find? (fun a => a.guid == g)

def getAmount (st : List Account) (g : Nat) : Option Int :=
  (findAcct st g).bind (fun a => a.amount)

def children (st : List Account) (g : Nat) : List Account :=
  st.filter (fun a => a.parent == some g)

def childGuids (st : List Account) (g : Nat) : List Nat :=
  (children st g).map (fun a => a.guid)

def sumAmounts (l : List Account) : Int :=
  (l.filterMap (fun a => a.amount)).sum

def setAmount (st : List Account) (g : Nat) (v : Int) : List Account :=
  st.map (fun a => if a.guid == g then { a with amount := some v } else a)

/-- The recursive rollup `aggregate_balance_for_guid`: if the guid's
balance is unknown, first recurse into every subordinate account (rows
whose `parent_guid` equals `guid`, iterated in table order), then write
the NaN-skipping sum of the subordinates' amounts into every row of this
guid.  `fuel` bounds the recursion depth. -/
def aggregate : Nat → List Account → Nat → List Account
  | 0, st, _ => st
  | fuel+1, st, g =>
    match getAmount st g with
    | some _ => st
    | none =>
      let st1 := (childGuids st g).foldl (aggregate fuel) st
      setAmount st1 g (sumAmounts (children st1 g))

/-- Rows whose `parent_guid` does not occur in the `account_guid` column
(the root-candidate selection of `plot_accounts_sunburst`). -/
def rootCandidates (st : List Account) : List Account :=
  st.filter (fun a => !(st.any (fun b => some b.guid == a.parent)))

/-- Blank the parent reference of every row carrying the root guid
(`account_balances.loc[account_balances.account_guid == root_guid, "parent_guid"] = ""`). -/
def normalizeRoot (st : List Account) (r : Nat) : List Account :=
  st.map (fun a => if a.guid == r then { a with parent := none } else a)

/-- Failure modes of the aggregation pipeline; the spec's §7 calls both
`TreeIntegrityError`.  `noRoot` is the `IndexError` of `.iloc[0]` on an
empty candidate selection; `unresolved` is the failing post-aggregation
`assert not account_balances.amount.isna().any()`. -/
inductive TreeError where
  | noRoot : TreeError
  | unresolved : TreeError
deriving DecidableEq, Repr

/-- The aggregation part of `plot_accounts_sunburst`: root identification
(first candidate), parent normalization, recursive rollup from the root,
and the totality assert. -/
def runAggregation (fuel : Nat) (st : List Account) : Except TreeError (List Account) :=
  match rootCandidates st with
  | [] => .error .noRoot
  | r :: _ =>
    let st0 := normalizeRoot st r.guid
    let st1 := aggregate fuel st0 r.guid
    if st1.all (fun a => a.amount.isSome) then .ok st1 else .error .unresolved

/-- Parent-to-child edge of the account table: some row has guid `c` and
parent reference `some p`. -/
def HasEdge (st : List Account) (p c : Nat) : Prop := (c, some p) ∈ shape st

instance (st : List Account) (p c : Nat) : Decidable (HasEdge st p c) := by
  unfold HasEdge; infer_instance

/-- Reachability from `r` along parent-to-child edges (the set of accounts
the recursive walk can ever visit when started at `r`). -/
inductive Reaches (st : List Account) (r : Nat) : Nat → Prop
  | refl : Reaches st r r
  | step {p c : Nat} : Reaches st r p → HasEdge st p c → Reaches st r c

/-- Reachability along edges whose tails are unknown-balance accounts:
exactly the nodes the recursion actually descends through (it stops at an
account with a known balance). -/
inductive KReaches (st : List Account) (r : Nat) : Nat → Prop
  | refl : KReaches st r r
  | step {p c : Nat} : KReaches st r p → getAmount st p = none → HasEdge st p c →
      KReaches st r c

/-- Acyclicity of the parent/child relation, witnessed by a rank function
strictly decreasing from parent to child. -/
def ChildRank (st : List Account) (h : Nat → Nat) : Prop :=
  ∀ c ∈ st, ∀ p ∈ st, c.parent = some p.guid → h c.guid < h p.guid

instance (st : List Account) (h : Nat → Nat) : Decidable (ChildRank st h) := by
  unfold ChildRank; infer_instance

/-! ### Structural lemmas -/

theorem guids_eq_shape_fst (st : List Account) : guids st = (shape st).map Prod.fst := by
  simp [guids, shape, List.map_map, Function.comp]

theorem findAcct_map_of_guid (f : Account → Account) (hf : ∀ a, (f a).guid = a.guid)
    (st : List Account) (x : Nat) : findAcct (st.map f) x = (findAcct st x).map f := by
  induction st with
  | nil => rfl
  | cons a t ih =>
    by_cases h : a.guid = x
    · rw [List.map_cons, findAcct, findAcct,
        List.find?_cons_of_pos _ (by simp [hf, h]),
        List.find?_cons_of_pos _ (by simp [h])]
      rfl
    · rw [List.map_cons, findAcct, findAcct,
        List.find?_cons_of_neg _ (by simp [hf, h]),
        List.find?_cons_of_neg _ (by simp [h])]
      exact ih

theorem findAcct_guid {st : List Account} {g : Nat} {a : Account}
    (h : findAcct st g = some a) : a.guid = g := by
  have := List.find?_some h
  simpa using this

theorem findAcct_mem {st : List Account} {g : Nat} {a : Account}
    (h : findAcct st g = some a) : a ∈ st := List.mem_of_find?_eq_some h

theorem findAcct_isSome {st : List Account} {g : Nat} :
    (findAcct st g).isSome ↔ g ∈ guids st := by
  rw [findAcct, List.find?_isSome]
  constructor
  · rintro ⟨a, ha, hp⟩
    have hg : a.guid = g := by simpa using hp
    exact hg ▸ List.mem_map_of_mem _ ha
  · intro hg
    rcases List.mem_map.mp hg with ⟨a, ha, rfl⟩
    exact ⟨a, ha, by simp⟩

theorem findAcct_eq_none {st : List Account} {g : Nat} (h : g ∉ guids st) :
    findAcct st g = none := by
  cases hf : findAcct st g with
  | none => rfl
  | some a => exact absurd (findAcct_isSome.mp (by simp [hf])) h

theorem shape_setAmount (st : List Account) (g : Nat) (v : Int) :
    shape (setAmount st g v) = shape st := by
  rw [shape, setAmount, List.map_map, shape]
  apply List.map_congr_left
  intro b _
  by_cases h : b.guid = g <;> simp [Function.comp, h]

theorem guids_setAmount (st : List Account) (g : Nat) (v : Int) :
    guids (setAmount st g v) = guids st := by
  rw [guids_eq_shape_fst, guids_eq_shape_fst, shape_setAmount]

theorem guids_normalizeRoot (st : List Account) (r : Nat) :
    guids (normalizeRoot st r) = guids st := by
  rw [guids, normalizeRoot, List.map_map, guids]
  apply List.map_congr_left
  intro b _
  by_cases h : b.guid = r <;> simp [Function.comp, h]

theorem getAmount_normalizeRoot (st : List Account) (r x : Nat) :
    getAmount (normalizeRoot st r) x = getAmount st x := by
  rw [getAmount, normalizeRoot,
    findAcct_map_of_guid _ (fun a => by by_cases h : a.guid = r <;> simp [h]) st x,
    getAmount]
  cases findAcct st x with
  | none => rfl
  | some a =>
    by_cases h : a.guid = r <;> simp [h]

theorem sumAmounts_normalizeRoot (st : List Account) (r : Nat) :
    sumAmounts (normalizeRoot st r) = sumAmounts st := by
  rw [sumAmounts, normalizeRoot, List.filterMap_map, sumAmounts]
  congr 1
  apply List.filterMap_congr
  intro b _
  by_cases h : b.guid = r <;> simp [Function.comp, h]

theorem getAmount_setAmount_self {st : List Account} {g : Nat} (v : Int)
    (hg : g ∈ guids st) : getAmount (setAmount st g v) g = some v := by
  rw [getAmount, setAmount,
    findAcct_map_of_guid _ (fun a => by by_cases h : a.guid = g <;> simp [h]) st g]
  cases hf : findAcct st g with
  | none => exact absurd (findAcct_isSome.mpr hg) (by simp [hf])
  | some a =>
    have := findAcct_guid hf
    simp [this]

theorem getAmount_setAmount_ne {st : List Account} {g x : Nat} (v : Int)
    (hxg : x ≠ g) : getAmount (setAmount st g v) x = getAmount st x := by
  rw [getAmount, setAmount,
    findAcct_map_of_guid _ (fun a => by by_cases h : a.guid = g <;> simp [h]) st x,
    getAmount]
  cases hf : findAcct st x with
  | none => rfl
  | some a =>
    have ha := findAcct_guid hf
    have : ¬ (a.guid = g) := by rw [ha]; exact hxg
    simp [this]

theorem getAmount_of_mem : ∀ {st : List Account}, (guids st).Nodup →
    ∀ {a : Account}, a ∈ st → getAmount st a.guid = a.amount := by
  intro st
  induction st with
  | nil => intro _ a ha; cases ha
  | cons b t ih =>
    intro hN a ha
    have hN' : b.guid ∉ guids t ∧ (guids t).Nodup := by
      simpa [guids, List.nodup_cons] using hN
    rcases List.mem_cons.mp ha with rfl | hat
    · rw [getAmount, findAcct, List.find?_cons_of_pos _ (by simp)]
      rfl
    · have hba : ¬ (b.guid = a.guid) := by
        intro h
        exact hN'.1 (h ▸ List.mem_map_of_mem _ hat)
      rw [getAmount, findAcct, List.find?_cons_of_neg _ (by simp [hba])]
      exact ih hN'.2 hat

theorem fst_nodup_eq : ∀ {l : List (Nat × Option Nat)} {a : Nat} {b c : Option Nat},
    (l.map Prod.fst).Nodup → (a, b) ∈ l → (a, c) ∈ l → b = c := by
  intro l
  induction l with
  | nil => intro a b c _ h; cases h
  | cons hd tl ih =>
    intro a b c hN h1 h2
    have hN' : hd.1 ∉ tl.map Prod.fst ∧ (tl.map Prod.fst).Nodup := by
      simpa [List.nodup_cons] using hN
    rcases List.mem_cons.mp h1 with h1 | h1 <;> rcases List.mem_cons.mp h2 with h2 | h2
    · rw [← h1] at h2; exact (((Prod.mk.injEq _ _ _ _).mp h2).2).symm
    · exfalso
      apply hN'.1
      have : hd.1 = a := by rw [← h1]
      rw [this]
      exact List.mem_map_of_mem _ h2
    · exfalso
      apply hN'.1
      have : hd.1 = a := by rw [← h2]
      rw [this]
      exact List.mem_map_of_mem _ h1
    · exact ih hN'.2 h1 h2

/-! ### Edge and reachability lemmas -/

theorem hasEdge_row {st : List Account} {p c : Nat} (h : HasEdge st p c) :
    ∃ a ∈ st, a.guid = c ∧ a.parent = some p := by
  rcases List.mem_map.mp h with ⟨a, ha, hpr⟩
  exact ⟨a, ha, (Prod.mk.injEq _ _ _ _).mp hpr |>.1, (Prod.mk.injEq _ _ _ _).mp hpr |>.2⟩

theorem row_hasEdge {st : List Account} {a : Account} {p : Nat}
    (ha : a ∈ st) (hp : a.parent = some p) : HasEdge st p a.guid := by
  rw [HasEdge, ← hp]
  exact List.mem_map_of_mem _ ha

theorem hasEdge_mem_guids {st : List Account} {p c : Nat} (h : HasEdge st p c) :
    c ∈ guids st := by
  rw [guids_eq_shape_fst]
  exact List.mem_map_of_mem _ h

theorem inedge_unique {st : List Account} {p q c : Nat} (hN : (guids st).Nodup)
    (h1 : HasEdge st p c) (h2 : HasEdge st q c) : p = q := by
  rw [guids_eq_shape_fst] at hN
  have := fst_nodup_eq hN h1 h2
  simpa using this

theorem mem_childGuids {st : List Account} {g c : Nat} :
    c ∈ childGuids st g ↔ HasEdge st g c := by
  constructor
  · intro h
    rcases List.mem_map.mp h with ⟨a, ha, rfl⟩
    have := List.mem_filter.mp ha
    exact row_hasEdge this.1 (by simpa using this.2)
  · intro h
    rcases hasEdge_row h with ⟨a, ha, rfl, hp⟩
    exact List.mem_map_of_mem _ (List.mem_filter.mpr ⟨ha, by simp [hp]⟩)

theorem childGuids_nodup {st : List Account} (hN : (guids st).Nodup) (g : Nat) :
    (childGuids st g).Nodup := by
  have hsub : List.Sublist (childGuids st g) (guids st) := (List.filter_sublist st).map _
  exact hsub.nodup hN

theorem hasEdge_of_shape {s t : List Account} (h : shape s = shape t) {p c : Nat} :
    HasEdge s p c ↔ HasEdge t p c := by
  rw [HasEdge, HasEdge, h]

theorem reaches_of_shape {s t : List Account} (h : shape s = shape t) {r x : Nat}
    (hr : Reaches s r x) : Reaches t r x := by
  induction hr with
  | refl => exact Reaches.refl
  | step _ he ih => exact Reaches.step ih ((hasEdge_of_shape h).mp he)

theorem childGuids_of_shape : ∀ {s t : List Account}, shape s = shape t →
    ∀ g, childGuids s g = childGuids t g := by
  intro s
  induction s with
  | nil =>
    intro t h g
    cases t with
    | nil => rfl
    | cons b t' => simp [shape] at h
  | cons a s' ih =>
    intro t h g
    cases t with
    | nil => simp [shape] at h
    | cons b t' =>
      simp only [shape, List.map_cons, List.cons.injEq] at h
      have hg : a.guid = b.guid := ((Prod.mk.injEq _ _ _ _).mp h.1).1
      have hp : a.parent = b.parent := ((Prod.mk.injEq _ _ _ _).mp h.1).2
      have ht : shape s' = shape t' := h.2
      have htail := ih ht g
      simp only [childGuids, children] at htail
      by_cases hbp : b.parent = some g <;>
        simp [childGuids, children, List.filter_cons, hg, hp, hbp, htail]

theorem guids_of_shape {s t : List Account} (h : shape s = shape t) :
    guids s = guids t := by
  rw [guids_eq_shape_fst, guids_eq_shape_fst, h]

theorem reaches_trans {st : List Account} {a b c : Nat}
    (h1 : Reaches st a b) (h2 : Reaches st b c) : Reaches st a c := by
  induction h2 with
  | refl => exact h1
  | step _ he ih => exact Reaches.step ih he

theorem reaches_head {st : List Account} {g x : Nat} (h : Reaches st g x) :
    x = g ∨ ∃ c, HasEdge st g c ∧ Reaches st c x := by
  induction h with
  | refl => exact Or.inl rfl
  | step hp he ih =>
    rcases ih with rfl | ⟨c, hc, hcp⟩
    · exact Or.inr ⟨_, he, Reaches.refl⟩
    · exact Or.inr ⟨c, hc, Reaches.step hcp he⟩

theorem reaches_last {st : List Account} {q x : Nat} (h : Reaches st q x) (hne : x ≠ q) :
    ∃ p, HasEdge st p x ∧ Reaches st q p := by
  cases h with
  | refl => exact absurd rfl hne
  | step hp he => exact ⟨_, he, hp⟩

/-! ### Unfolding and invariance lemmas for `aggregate` -/

theorem aggregate_succ_known {fuel : Nat} {st : List Account} {g : Nat} {v : Int}
    (hg : getAmount st g = some v) : aggregate (fuel+1) st g = st := by
  simp [aggregate, hg]

theorem aggregate_succ_none {fuel : Nat} {st : List Account} {g : Nat}
    (hg : getAmount st g = none) :
    aggregate (fuel+1) st g =
      setAmount ((childGuids st g).foldl (aggregate fuel) st) g
        (sumAmounts (children ((childGuids st g).foldl (aggregate fuel) st) g)) := by
  simp [aggregate, hg]

theorem shape_aggregate : ∀ (fuel : Nat) (st : List Account) (g : Nat),
    shape (aggregate fuel st g) = shape st := by
  intro fuel
  induction fuel with
  | zero => intro st g; rfl
  | succ fuel ih =>
    intro st g
    cases hg : getAmount st g with
    | some v => rw [aggregate_succ_known hg]
    | none =>
      rw [aggregate_succ_none hg, shape_setAmount]
      have aux : ∀ (gs : List Nat) (s : List Account),
          shape (gs.foldl (aggregate fuel) s) = shape s := by
        intro gs
        induction gs with
        | nil => intro s; rfl
        | cons c cs ihc => intro s; rw [List.foldl_cons, ihc, ih]
      exact aux _ _

theorem shape_foldl_aggregate (fuel : Nat) : ∀ (gs : List Nat) (s : List Account),
    shape (gs.foldl (aggregate fuel) s) = shape s := by
  intro gs
  induction gs with
  | nil => intro s; rfl
  | cons c cs ihc => intro s; rw [List.foldl_cons, ihc, shape_aggregate]

theorem aggregate_known : ∀ (fuel : Nat) (st : List Account) (g x : Nat) (v : Int),
    getAmount st x = some v → getAmount (aggregate fuel st g) x = some v := by
  intro fuel
  induction fuel with
  | zero => intro st g x v hx; exact hx
  | succ fuel ih =>
    intro st g x v hx
    cases hg : getAmount st g with
    | some w => rw [aggregate_succ_known hg]; exact hx
    | none =>
      have hxg : x ≠ g := by rintro rfl; rw [hx] at hg; cases hg
      rw [aggregate_succ_none hg]
      have aux : ∀ (gs : List Nat) (s : List Account),
          getAmount s x = some v → getAmount (gs.foldl (aggregate fuel) s) x = some v := by
        intro gs
        induction gs with
        | nil => intro s hs; exact hs
        | cons c cs ihc => intro s hs; exact ihc _ (ih _ _ _ _ hs)
      rw [getAmount_setAmount_ne _ hxg]
      exact aux _ _ hx

theorem foldl_aggregate_known (fuel : Nat) : ∀ (gs : List Nat) (st : List Account)
    (x : Nat) (v : Int), getAmount st x = some v →
    getAmount (gs.foldl (aggregate fuel) st) x = some v := by
  intro gs
  induction gs with
  | nil => intro st x v h; exact h
  | cons c cs ihc => intro st x v h; exact ihc _ _ _ (aggregate_known _ _ _ _ _ h)

theorem aggregate_unreached : ∀ (fuel : Nat) (st : List Account) (g x : Nat),
    ¬ Reaches st g x → getAmount (aggregate fuel st g) x = getAmount st x := by
  intro fuel
  induction fuel with
  | zero => intro st g x _; rfl
  | succ fuel ih =>
    intro st g x hnr
    cases hg : getAmount st g with
    | some w => rw [aggregate_succ_known hg]
    | none =>
      have hxg : x ≠ g := fun h => hnr (h ▸ Reaches.refl)
      rw [aggregate_succ_none hg, getAmount_setAmount_ne _ hxg]
      have aux : ∀ (gs : List Nat) (s : List Account), shape s = shape st →
          (∀ c ∈ gs, Reaches st g c) →
          getAmount (gs.foldl (aggregate fuel) s) x = getAmount s x := by
        intro gs
        induction gs with
        | nil => intro s _ _; rfl
        | cons c cs ihc =>
          intro s hsh hcs
          rw [List.foldl_cons]
          have hnc : ¬ Reaches s c x := by
            intro hr
            exact hnr (reaches_trans (hcs c (by simp)) (reaches_of_shape hsh hr))
          rw [ihc _ (by rw [shape_aggregate]; exact hsh)
                (fun d hd => hcs d (by simp [hd])),
              ih _ _ _ hnc]
      exact aux _ st rfl (fun c hc => Reaches.step Reaches.refl (mem_childGuids.mp hc))

/-! ### Rank lemmas (acyclicity) -/

theorem childRank_edge {st : List Account} {h : Nat → Nat} {p g : Nat}
    (hR : ChildRank st h) (he : HasEdge st p g) (hp : p ∈ guids st) : h g < h p := by
  rcases hasEdge_row he with ⟨c, hc, rfl, hcp⟩
  rcases List.mem_map.mp hp with ⟨b, hb, rfl⟩
  exact hR c hc b hb (by rw [hcp])

theorem rank_reach {st : List Account} {h : Nat → Nat} {a : Nat}
    (hR : ChildRank st h) (ha : a ∈ guids st) :
    ∀ {b}, Reaches st a b → b = a ∨ (b ∈ guids st ∧ h b < h a) := by
  intro b hr
  induction hr with
  | refl => exact Or.inl rfl
  | step hp he ih =>
    right
    have hcg := hasEdge_mem_guids he
    rcases ih with rfl | ⟨hpg, hlt⟩
    · exact ⟨hcg, childRank_edge hR he ha⟩
    · exact ⟨hcg, lt_trans (childRank_edge hR he hpg) hlt⟩

theorem no_loop {st : List Account} {h : Nat → Nat} {g c : Nat}
    (hR : ChildRank st h) (hg : g ∈ guids st) (he : HasEdge st g c) :
    ¬ Reaches st c g := by
  intro hr
  have hcg : c ∈ guids st := hasEdge_mem_guids he
  have hlt : h c < h g := childRank_edge hR he hg
  rcases rank_reach hR hcg hr with rfl | ⟨_, hlt2⟩
  · exact absurd hlt (lt_irrefl _)
  · omega

theorem sibling_disjoint {st : List Account} {h : Nat → Nat} {g c c' : Nat}
    (hN : (guids st).Nodup) (hR : ChildRank st h) (hg : g ∈ guids st)
    (hc : HasEdge st g c) (hc' : HasEdge st g c') (hne : c ≠ c') :
    ∀ {x}, Reaches st c x → ¬ Reaches st c' x := by
  intro x hx
  induction hx with
  | refl =>
    intro hr
    rcases reaches_last hr hne with ⟨p, hpe, hp⟩
    have hpg : p = g := inedge_unique hN hpe hc
    subst hpg
    exact no_loop hR hg hc' hp
  | @step p y hq he ih =>
    intro hr
    by_cases hyc' : y = c'
    · have hcc' : Reaches st c c' := by rw [← hyc']; exact Reaches.step hq he
      rcases reaches_last hcc' (Ne.symm hne) with ⟨q, hqe, hq2⟩
      have hqg : q = g := inedge_unique hN hqe hc'
      subst hqg
      exact no_loop hR hg hc hq2
    · rcases reaches_last hr hyc' with ⟨q, hqe, hq2⟩
      have hqp : q = p := inedge_unique hN hqe he
      subst hqp
      exact ih hq2

/-! ### K-reachability lemmas -/

theorem kreaches_reaches {st : List Account} {r x : Nat}
    (h : KReaches st r x) : Reaches st r x := by
  induction h with
  | refl => exact Reaches.refl
  | step _ _ he ih => exact Reaches.step ih he

theorem kreaches_trans {st : List Account} {a b c : Nat}
    (h1 : KReaches st a b) (h2 : KReaches st b c) : KReaches st a c := by
  induction h2 with
  | refl => exact h1
  | step _ hn he ih => exact KReaches.step ih hn he

theorem kreaches_known_eq {st : List Account} {c y : Nat}
    (hc : getAmount st c ≠ none) (h : KReaches st c y) : y = c := by
  induction h with
  | step hp hn _ ih => rw [ih] at hn; exact absurd hn hc
  | refl => rfl

theorem kreaches_head {st : List Account} {g y : Nat} (hg : getAmount st g = none) :
    KReaches st g y ↔ y = g ∨ ∃ c, HasEdge st g c ∧ KReaches st c y := by
  constructor
  · intro h
    induction h with
    | refl => exact Or.inl rfl
    | @step p z hp hn he ih =>
      rcases ih with rfl | ⟨c, hce, hck⟩
      · exact Or.inr ⟨z, he, KReaches.refl⟩
      · exact Or.inr ⟨c, hce, KReaches.step hck hn he⟩
  · rintro (rfl | ⟨c, hce, hck⟩)
    · exact KReaches.refl
    · exact kreaches_trans (KReaches.step KReaches.refl hg hce) hck

theorem kreaches_transfer {s t : List Account} {x : Nat} (hsh : shape s = shape t)
    (hag : ∀ z, Reaches t x z → getAmount s z = getAmount t z) :
    ∀ {y}, KReaches t x y → KReaches s x y := by
  intro y h
  induction h with
  | refl => exact KReaches.refl
  | @step p c hp hn he ih =>
    exact KReaches.step ih (by rw [hag p (kreaches_reaches hp)]; exact hn)
      ((hasEdge_of_shape hsh).mpr he)

/-! ### Sum lemmas -/

theorem filterMap_amount_sum (l : List Account) :
    (l.filterMap (fun a => a.amount)).sum = (l.map (fun a => a.amount.getD 0)).sum := by
  induction l with
  | nil => rfl
  | cons a t ih => cases h : a.amount <;> simp [List.filterMap_cons, h, ih]

theorem sumAmounts_children {st : List Account} (hN : (guids st).Nodup) (g : Nat) :
    sumAmounts (children st g) =
      ((childGuids st g).map (fun c => (getAmount st c).getD 0)).sum := by
  rw [sumAmounts, filterMap_amount_sum, childGuids, List.map_map]
  congr 1
  apply List.map_congr_left
  intro a ha
  have hmem : a ∈ st := (List.mem_filter.mp ha).1
  simp [Function.comp, getAmount_of_mem hN hmem]

theorem sumAmounts_eq_guids_sum {st : List Account} (hN : (guids st).Nodup) :
    ((guids st).map (fun g => (getAmount st g).getD 0)).sum = sumAmounts st := by
  rw [sumAmounts, filterMap_amount_sum, guids, List.map_map]
  congr 1
  apply List.map_congr_left
  intro a ha
  simp [Function.comp, getAmount_of_mem hN ha]

theorem select_sublist (S : List Nat) (P : Nat → Prop) (hN : S.Nodup) :
    ∃ T : List Nat, T.Nodup ∧ ∀ y, (y ∈ T ↔ y ∈ S ∧ P y) := by
  classical
  refine ⟨S.filter (fun y => decide (P y)), hN.filter _, ?_⟩
  intro y
  simp [List.mem_filter]

theorem sum_of_unique (T : List Nat) (c : Nat) (f : Nat → Int) (hN : T.Nodup)
    (hc : ∀ y, y ∈ T ↔ y = c) : (T.map f).sum = f c := by
  cases T with
  | nil => exact absurd ((hc c).mpr rfl) (List.not_mem_nil c)
  | cons a t =>
    have ha : a = c := (hc a).mp (by simp)
    cases t with
    | nil => simp [ha]
    | cons b t' =>
      exfalso
      have hb : b = c := (hc b).mp (by simp)
      rw [ha, hb] at hN
      simp [List.nodup_cons] at hN

theorem partition_sum (S cs : List Nat) (g : Nat) (f : Nat → Int) (T : Nat → List Nat)
    (hS : S.Nodup) (hcs : cs.Nodup) (hgS : g ∈ S)
    (hT : ∀ c ∈ cs, (T c).Nodup)
    (hTS : ∀ c ∈ cs, ∀ y ∈ T c, y ∈ S)
    (hgT : ∀ c ∈ cs, g ∉ T c)
    (hdisj : ∀ c ∈ cs, ∀ d ∈ cs, c ≠ d → ∀ y, y ∈ T c → y ∉ T d)
    (hcover : ∀ y ∈ S, y ≠ g → ∃ c ∈ cs, y ∈ T c)
    (hfg : f g = 0) :
    (S.map f).sum = (cs.map (fun c => ((T c).map f).sum)).sum := by
  have hdisj2 : Set.PairwiseDisjoint (↑cs.toFinset : Set Nat)
      (fun c => (T c).toFinset) := by
    intro a ha b hb hab
    simp only [Function.onFun]
    rw [Finset.disjoint_left]
    intro y hya hyb
    rw [List.mem_toFinset] at hya hyb
    exact hdisj a (by simpa using ha) b (by simpa using hb) hab y hya hyb
  have hset : S.toFinset = insert g (cs.toFinset.biUnion (fun c => (T c).toFinset)) := by
    ext y
    simp only [List.mem_toFinset, Finset.mem_insert, Finset.mem_biUnion]
    constructor
    · intro hy
      by_cases hyg : y = g
      · exact Or.inl hyg
      · rcases hcover y hy hyg with ⟨c, hc, hyc⟩
        exact Or.inr ⟨c, by simp [hc], by simp [hyc]⟩
    · rintro (rfl | ⟨c, hc, hyc⟩)
      · exact hgS
      · exact hTS c (by simpa using hc) y (by simpa using hyc)
  have hgnotin : g ∉ cs.toFinset.biUnion (fun c => (T c).toFinset) := by
    rw [Finset.mem_biUnion]
    rintro ⟨c, hc, hgc⟩
    exact hgT c (by simpa using hc) (by simpa using hgc)
  calc (S.map f).sum = S.toFinset.sum f := (List.sum_toFinset f hS).symm
    _ = (insert g (cs.toFinset.biUnion (fun c => (T c).toFinset))).sum f := by rw [hset]
    _ = f g + (cs.toFinset.biUnion (fun c => (T c).toFinset)).sum f :=
          Finset.sum_insert hgnotin
    _ = (cs.toFinset.biUnion (fun c => (T c).toFinset)).sum f := by rw [hfg, zero_add]
    _ = cs.toFinset.sum (fun c => (T c).toFinset.sum f) := Finset.sum_biUnion hdisj2
    _ = cs.toFinset.sum (fun c => ((T c).map f).sum) := by
          apply Finset.sum_congr rfl
          intro c hc
          exact List.sum_toFinset f (hT c (by simpa using hc))
    _ = (cs.map (fun c => ((T c).map f).sum)).sum := List.sum_toFinset _ hcs

theorem reaches_mem_guids {st : List Account} {a x : Nat} (ha : a ∈ guids st)
    (hr : Reaches st a x) : x ∈ guids st := by
  induction hr with
  | refl => exact ha
  | step _ he _ => exact hasEdge_mem_guids he

theorem childRank_of_shape {s t : List Account} {h : Nat → Nat}
    (hsh : shape s = shape t) (hR : ChildRank t h) : ChildRank s h := by
  intro c hc p hp hcp
  have hc' : (c.guid, c.parent) ∈ shape t := by
    rw [← hsh]; exact List.mem_map_of_mem _ hc
  have hp' : (p.guid, p.parent) ∈ shape t := by
    rw [← hsh]; exact List.mem_map_of_mem _ hp
  rcases List.mem_map.mp hc' with ⟨c2, hc2, hc2e⟩
  rcases List.mem_map.mp hp' with ⟨p2, hp2, hp2e⟩
  have e1g : c2.guid = c.guid := congrArg Prod.fst hc2e
  have e1p : c2.parent = c.parent := congrArg Prod.snd hc2e
  have e2g : p2.guid = p.guid := congrArg Prod.fst hp2e
  have hlt := hR c2 hc2 p2 hp2 (by rw [e1p, hcp, e2g])
  rw [e1g, e2g] at hlt
  exact hlt

/-- Central correctness lemma for a single call of the recursive rollup on
an account table whose parent/child relation is ranked (acyclic), with
unique guids, assuming every known-balance account inside the walked
region only has known-balance children (the region the walk never
descends into).  Conclusions: (A) every account reachable from `g` ends
with a defined balance; (B) every reachable, originally-unknown account
ends carrying the sum of its direct children's final balances; (C) if `g`
itself is originally unknown, its final balance is the sum of the
original balances over any enumeration of its unknown-interior-reachable
set. -/
theorem aggregate_main (h : Nat → Nat) : ∀ (fuel : Nat) (st : List Account) (g : Nat),
    (guids st).Nodup → ChildRank st h → g ∈ guids st → h g < fuel →
    (∀ x y, Reaches st g x → HasEdge st x y → getAmount st x ≠ none →
      getAmount st y ≠ none) →
    ((∀ x, Reaches st g x → getAmount (aggregate fuel st g) x ≠ none) ∧
     (∀ x, Reaches st g x → getAmount st x = none →
        getAmount (aggregate fuel st g) x =
          some (((childGuids st x).map
            (fun y => (getAmount (aggregate fuel st g) y).getD 0)).sum)) ∧
     (∀ S : List Nat, getAmount st g = none → S.Nodup →
        (∀ y, y ∈ S ↔ (KReaches st g y ∧ y ∈ guids st)) →
        getAmount (aggregate fuel st g) g =
          some ((S.map (fun y => (getAmount st y).getD 0)).sum))) := by
  intro fuel
  induction fuel with
  | zero => intro st g _ _ _ hf _; exact absurd hf (Nat.not_lt_zero _)
  | succ fuel ihf =>
    intro st g hN hR hg hf hU
    cases hget : getAmount st g with
    | some v =>
      rw [aggregate_succ_known hget]
      have hknown : ∀ x, Reaches st g x → getAmount st x ≠ none := by
        intro x hx
        induction hx with
        | refl => rw [hget]; simp
        | step hp he ihp => exact hU _ _ hp he ihp
      refine ⟨hknown, ?_, ?_⟩
      · intro x hx hxe
        exact absurd hxe (hknown x hx)
      · intro S hnone
        cases hnone
    | none =>
      rw [aggregate_succ_none hget]
      have hcsN : (childGuids st g).Nodup := childGuids_nodup hN g
      -- the folded walk over the subordinate guids
      have AUX : ∀ (gs ds : List Nat) (s : List Account), childGuids st g = ds ++ gs →
          shape s = shape st →
          (∀ x, (∀ d ∈ ds, ¬ Reaches st d x) → getAmount s x = getAmount st x) →
          (∀ x, ∀ d ∈ ds, Reaches st d x →
            (getAmount s x ≠ none ∧
             (getAmount st x = none →
               getAmount s x =
                 some (((childGuids st x).map
                   (fun y => (getAmount s y).getD 0)).sum)))) →
          (∀ d ∈ ds, ∀ S : List Nat, getAmount st d = none → S.Nodup →
            (∀ y, y ∈ S ↔ (KReaches st d y ∧ y ∈ guids st)) →
            getAmount s d = some ((S.map (fun y => (getAmount st y).getD 0)).sum)) →
          (shape (gs.foldl (aggregate fuel) s) = shape st ∧
           (∀ x, (∀ d ∈ childGuids st g, ¬ Reaches st d x) →
             getAmount (gs.foldl (aggregate fuel) s) x = getAmount st x) ∧
           (∀ x, ∀ d ∈ childGuids st g, Reaches st d x →
             (getAmount (gs.foldl (aggregate fuel) s) x ≠ none ∧
              (getAmount st x = none →
                getAmount (gs.foldl (aggregate fuel) s) x =
                  some (((childGuids st x).map
                    (fun y => (getAmount (gs.foldl (aggregate fuel) s) y).getD 0)).sum)))) ∧
           (∀ d ∈ childGuids st g, ∀ S : List Nat, getAmount st d = none → S.Nodup →
             (∀ y, y ∈ S ↔ (KReaches st d y ∧ y ∈ guids st)) →
             getAmount (gs.foldl (aggregate fuel) s) d =
               some ((S.map (fun y => (getAmount st y).getD 0)).sum))) := by
        intro gs
        induction gs with
        | nil =>
          intro ds s hsplit hsh hout hin hksum
          rw [List.append_nil] at hsplit
          simp only [List.foldl_nil]
          rw [hsplit]
          exact ⟨hsh, hout, hin, hksum⟩
        | cons c gs' ihgs =>
          intro ds s hsplit hsh hout hin hksum
          have hc_cs : c ∈ childGuids st g := by rw [hsplit]; simp
          have hc_not_ds : c ∉ ds := by
            have hnd : (ds ++ c :: gs').Nodup := by rw [← hsplit]; exact hcsN
            intro hcds
            rcases List.nodup_append.mp hnd with ⟨_, _, hdisj⟩
            exact hdisj hcds (by simp)
          have hce : HasEdge st g c := mem_childGuids.mp hc_cs
          have hcg : c ∈ guids st := hasEdge_mem_guids hce
          have hreach_gc : Reaches st g c := Reaches.step Reaches.refl hce
          have hfc : h c < fuel := by
            have := childRank_edge hR hce hg
            omega
          have huntouched : ∀ x, Reaches st c x → getAmount s x = getAmount st x := by
            intro x hx
            apply hout
            intro d hd hdx
            have hde : HasEdge st g d :=
              mem_childGuids.mp (by rw [hsplit]; exact List.mem_append_left _ hd)
            have hdc : d ≠ c := fun hdc => hc_not_ds (hdc ▸ hd)
            exact sibling_disjoint hN hR hg hde hce hdc hdx hx
          have hshN : (guids s).Nodup := by rw [guids_of_shape hsh]; exact hN
          have hsR : ChildRank s h := childRank_of_shape hsh hR
          have hscg : c ∈ guids s := by rw [guids_of_shape hsh]; exact hcg
          have hsU : ∀ x y, Reaches s c x → HasEdge s x y → getAmount s x ≠ none →
              getAmount s y ≠ none := by
            intro x y hx he hxne
            have hx' : Reaches st c x := reaches_of_shape hsh hx
            have he' : HasEdge st x y := (hasEdge_of_shape hsh).mp he
            have hy' : Reaches st c y := Reaches.step hx' he'
            rw [huntouched y hy']
            rw [huntouched x hx'] at hxne
            exact hU x y (reaches_trans hreach_gc hx') he' hxne
          have IHC := ihf s c hshN hsR hscg hfc hsU
          have hsplit' : childGuids st g = (ds ++ [c]) ++ gs' := by rw [hsplit]; simp
          have hsh' : shape (aggregate fuel s c) = shape st := by
            rw [shape_aggregate]; exact hsh
          have hout' : ∀ x, (∀ d ∈ ds ++ [c], ¬ Reaches st d x) →
              getAmount (aggregate fuel s c) x = getAmount st x := by
            intro x hnd
            have hncx : ¬ Reaches s c x := by
              intro hr
              exact hnd c (by simp) (reaches_of_shape hsh hr)
            rw [aggregate_unreached _ _ _ _ hncx]
            exact hout x (fun d hd => hnd d (by simp [hd]))
          have hin' : ∀ x, ∀ d ∈ ds ++ [c], Reaches st d x →
              (getAmount (aggregate fuel s c) x ≠ none ∧
               (getAmount st x = none →
                 getAmount (aggregate fuel s c) x =
                   some (((childGuids st x).map
                     (fun y => (getAmount (aggregate fuel s c) y).getD 0)).sum))) := by
            intro x d hd hdx
            rcases List.mem_append.mp hd with hd | hd
            · have hde : HasEdge st g d :=
                mem_childGuids.mp (by rw [hsplit]; exact List.mem_append_left _ hd)
              have hdnec : d ≠ c := fun hdc => hc_not_ds (hdc ▸ hd)
              have hpres : ∀ z, Reaches st d z →
                  getAmount (aggregate fuel s c) z = getAmount s z := by
                intro z hz
                have hnc : ¬ Reaches s c z := by
                  intro hr
                  exact sibling_disjoint hN hR hg hde hce hdnec hz
                    (reaches_of_shape hsh hr)
                exact aggregate_unreached _ _ _ _ hnc
              have hold := hin x d hd hdx
              refine ⟨by rw [hpres x hdx]; exact hold.1, ?_⟩
              intro hxe
              rw [hpres x hdx, hold.2 hxe]
              congr 1
              congr 1
              apply List.map_congr_left
              intro y hy
              have hye : HasEdge st x y := mem_childGuids.mp hy
              have hdy : Reaches st d y := Reaches.step hdx hye
              rw [hpres y hdy]
            · have hdc : d = c := by simpa using hd
              subst hdc
              have hdx' : Reaches s d x := reaches_of_shape hsh.symm hdx
              refine ⟨IHC.1 x hdx', ?_⟩
              intro hxe
              have hsxe : getAmount s x = none := by rw [huntouched x hdx]; exact hxe
              rw [IHC.2.1 x hdx' hsxe, childGuids_of_shape hsh x]
          have hksum' : ∀ d ∈ ds ++ [c], ∀ S : List Nat, getAmount st d = none →
              S.Nodup → (∀ y, y ∈ S ↔ (KReaches st d y ∧ y ∈ guids st)) →
              getAmount (aggregate fuel s c) d =
                some ((S.map (fun y => (getAmount st y).getD 0)).sum) := by
            intro d hd S hdnone hSN hSc
            rcases List.mem_append.mp hd with hd | hd
            · have hde : HasEdge st g d :=
                mem_childGuids.mp (by rw [hsplit]; exact List.mem_append_left _ hd)
              have hdnec : d ≠ c := fun hdc => hc_not_ds (hdc ▸ hd)
              have hnc : ¬ Reaches s c d := by
                intro hr
                exact sibling_disjoint hN hR hg hde hce hdnec Reaches.refl
                  (reaches_of_shape hsh hr)
              rw [aggregate_unreached _ _ _ _ hnc]
              exact hksum d hd S hdnone hSN hSc
            · have hdc : d = c := by simpa using hd
              subst hdc
              have hsnone : getAmount s d = none := by
                rw [huntouched d Reaches.refl]; exact hdnone
              have hSc' : ∀ y, y ∈ S ↔ (KReaches s d y ∧ y ∈ guids s) := by
                intro y
                rw [hSc y, guids_of_shape hsh]
                constructor
                · rintro ⟨hk, hyg⟩
                  exact ⟨kreaches_transfer hsh (fun z hz => huntouched z hz) hk, hyg⟩
                · rintro ⟨hk, hyg⟩
                  refine ⟨?_, hyg⟩
                  exact kreaches_transfer hsh.symm
                    (fun z hz => (huntouched z (reaches_of_shape hsh hz)).symm) hk
              rw [IHC.2.2 S hsnone hSN hSc']
              congr 1
              congr 1
              apply List.map_congr_left
              intro y hy
              have hky : KReaches st d y := ((hSc y).mp hy).1
              rw [huntouched y (kreaches_reaches hky)]
          rw [List.foldl_cons]
          exact ihgs (ds ++ [c]) (aggregate fuel s c) hsplit' hsh' hout' hin' hksum'
      obtain ⟨G1, G2, G3, G4⟩ :=
        AUX (childGuids st g) [] st (by simp) rfl
          (fun x _ => rfl)
          (by intro x d hd; cases hd)
          (by intro d hd; cases hd)
      have hg_st1_none :
          getAmount ((childGuids st g).foldl (aggregate fuel) st) g = none := by
        rw [G2 g (fun d hd => no_loop hR hg (mem_childGuids.mp hd))]
        exact hget
      have hst1N : (guids ((childGuids st g).foldl (aggregate fuel) st)).Nodup := by
        rw [guids_of_shape G1]; exact hN
      have hgst1 : g ∈ guids ((childGuids st g).foldl (aggregate fuel) st) := by
        rw [guids_of_shape G1]; exact hg
      have hget' : getAmount
          (setAmount ((childGuids st g).foldl (aggregate fuel) st) g
            (sumAmounts (children ((childGuids st g).foldl (aggregate fuel) st) g))) g =
          some (sumAmounts (children ((childGuids st g).foldl (aggregate fuel) st) g)) :=
        getAmount_setAmount_self _ hgst1
      have hne' : ∀ x, x ≠ g → getAmount
          (setAmount ((childGuids st g).foldl (aggregate fuel) st) g
            (sumAmounts (children ((childGuids st g).foldl (aggregate fuel) st) g))) x =
          getAmount ((childGuids st g).foldl (aggregate fuel) st) x :=
        fun x hx => getAmount_setAmount_ne _ hx
      have hchild_ne_g : ∀ c ∈ childGuids st g, c ≠ g := by
        intro c hc hceq
        have := childRank_edge hR (mem_childGuids.mp hc) hg
        rw [hceq] at this
        exact absurd this (lt_irrefl _)
      have hV : sumAmounts (children ((childGuids st g).foldl (aggregate fuel) st) g) =
          ((childGuids st g).map
            (fun c => (getAmount ((childGuids st g).foldl (aggregate fuel) st) c).getD 0)).sum := by
        rw [sumAmounts_children hst1N g, childGuids_of_shape G1 g]
      refine ⟨?_, ?_, ?_⟩
      · -- (A) totality on the reachable set
        intro x hx
        rcases reaches_head hx with hxeq | ⟨c, hce, hcx⟩
        · subst hxeq
          rw [hget']; simp
        · have hccs : c ∈ childGuids st g := mem_childGuids.mpr hce
          have hxg : x ≠ g := by
            rintro rfl
            exact no_loop hR hg hce hcx
          rw [hne' x hxg]
          exact (G3 x c hccs hcx).1
      · -- (B) local sum at every reachable, originally unknown account
        intro x hx hxe
        rcases reaches_head hx with hxeq | ⟨c, hce, hcx⟩
        · subst hxeq
          rw [hget']
          congr 1
          refine Eq.trans hV ?_
          congr 1
          apply List.map_congr_left
          intro y hy
          rw [hne' y (hchild_ne_g y hy)]
        · have hccs : c ∈ childGuids st g := mem_childGuids.mpr hce
          have hxg : x ≠ g := by
            rintro rfl
            exact no_loop hR hg hce hcx
          rw [hne' x hxg, (G3 x c hccs hcx).2 hxe]
          congr 1
          congr 1
          apply List.map_congr_left
          intro y hy
          have hye : HasEdge st x y := mem_childGuids.mp hy
          have hyne : y ≠ g := by
            intro hyg2
            rw [hyg2] at hye
            have hxgu : x ∈ guids st := reaches_mem_guids hg hx
            have h1 : h g < h x := childRank_edge hR hye hxgu
            rcases rank_reach hR hg hx with hxg2 | ⟨_, h2⟩
            · exact hxg hxg2
            · omega
          rw [hne' y hyne]
      · -- (C) the value written at g is the sum over its unknown-interior set
        intro S hnone hSN hSchar
        classical
        rw [hget']
        congr 1
        rw [hV]
        have hT_mem : ∀ c y,
            y ∈ S.filter (fun y => decide (KReaches st c y)) ↔
              y ∈ S ∧ KReaches st c y := by
          intro c y
          simp [List.mem_filter]
        have hT_nodup : ∀ c, (S.filter (fun y => decide (KReaches st c y))).Nodup :=
          fun c => hSN.filter _
        have hterm : ∀ c ∈ childGuids st g,
            (getAmount ((childGuids st g).foldl (aggregate fuel) st) c).getD 0 =
              ((S.filter (fun y => decide (KReaches st c y))).map
                (fun y => (getAmount st y).getD 0)).sum := by
          intro c hc
          have hce := mem_childGuids.mp hc
          cases hcv : getAmount st c with
          | some v =>
            rw [foldl_aggregate_known fuel _ st c v hcv]
            have hTc : ∀ y, y ∈ S.filter (fun y => decide (KReaches st c y)) ↔ y = c := by
              intro y
              rw [hT_mem]
              constructor
              · rintro ⟨hyS, hk⟩
                exact kreaches_known_eq (by rw [hcv]; simp) hk
              · rintro rfl
                refine ⟨?_, KReaches.refl⟩
                rw [hSchar y]
                exact ⟨KReaches.step KReaches.refl hget hce, hasEdge_mem_guids hce⟩
            rw [sum_of_unique _ c _ (hT_nodup c) hTc, hcv]
          | none =>
            rw [G4 c hc (S.filter (fun y => decide (KReaches st c y))) hcv (hT_nodup c) ?_]
            · rfl
            · intro y
              rw [hT_mem]
              constructor
              · rintro ⟨hyS, hk⟩
                exact ⟨hk, ((hSchar y).mp hyS).2⟩
              · rintro ⟨hk, hyg⟩
                refine ⟨?_, hk⟩
                rw [hSchar y]
                exact ⟨kreaches_trans (KReaches.step KReaches.refl hget hce) hk, hyg⟩
        rw [List.map_congr_left hterm]
        refine (partition_sum S (childGuids st g) g _
          (fun c => S.filter (fun y => decide (KReaches st c y)))
          hSN hcsN ((hSchar g).mpr ⟨KReaches.refl, hg⟩) (fun c _ => hT_nodup c)
          (fun c _ y hy => ((hT_mem c y).mp hy).1) ?_ ?_ ?_ ?_).symm
        · intro c hc hgc
          have hk := ((hT_mem c g).mp hgc).2
          exact no_loop hR hg (mem_childGuids.mp hc) (kreaches_reaches hk)
        · intro c hc d hd hcd y hyc hyd
          have hkc := ((hT_mem c y).mp hyc).2
          have hkd := ((hT_mem d y).mp hyd).2
          exact sibling_disjoint hN hR hg (mem_childGuids.mp hc) (mem_childGuids.mp hd)
            hcd (kreaches_reaches hkc) (kreaches_reaches hkd)
        · intro y hyS hyg
          have hk : KReaches st g y := ((hSchar y).mp hyS).1
          rcases (kreaches_head hget).mp hk with rfl | ⟨c, hce, hck⟩
          · exact absurd rfl hyg
          · exact ⟨c, mem_childGuids.mpr hce, (hT_mem c y).mpr ⟨hyS, hck⟩⟩
        · simp [hget]

/-! ### Pipeline-level helper lemmas -/

theorem aggregate_stop {fuel : Nat} {st : List Account} {g : Nat} {v : Int}
    (h : getAmount st g = some v) : aggregate fuel st g = st := by
  cases fuel with
  | zero => rfl
  | succ fuel => exact aggregate_succ_known h

theorem row_eq_of_guid : ∀ {st : List Account}, (guids st).Nodup →
    ∀ {a b : Account}, a ∈ st → b ∈ st → a.guid = b.guid → a = b := by
  intro st
  induction st with
  | nil => intro _ a b ha; cases ha
  | cons c t ih =>
    intro hN a b ha hb hg
    have hN' : c.guid ∉ guids t ∧ (guids t).Nodup := by
      simpa [guids, List.nodup_cons] using hN
    rcases List.mem_cons.mp ha with rfl | hat <;> rcases List.mem_cons.mp hb with rfl | hbt
    · rfl
    · exact absurd (hg ▸ List.mem_map_of_mem (fun x => x.guid) hbt) hN'.1
    · exact absurd (hg ▸ List.mem_map_of_mem (fun x => x.guid) hat) hN'.1
    · exact ih hN'.2 hat hbt hg

theorem rootCandidates_spec {st : List Account} {r : Account} {rest : List Account}
    (h : rootCandidates st = r :: rest) :
    r ∈ st ∧ ∀ b ∈ st, ¬ (some b.guid = r.parent) := by
  have hrmem : r ∈ rootCandidates st := by rw [h]; simp
  have := List.mem_filter.mp hrmem
  refine ⟨this.1, ?_⟩
  intro b hb hbe
  have hany : (st.any fun b => some b.guid == r.parent) = false := by
    simpa using this.2
  have := List.any_eq_false.mp hany b hb
  simp [hbe] at this

theorem all_amounts_false {st : List Account} {x : Nat} (hx : x ∈ guids st)
    (hnone : getAmount st x = none) :
    (st.all fun a => a.amount.isSome) = false := by
  cases hf : findAcct st x with
  | none => exact absurd (findAcct_isSome.mpr hx) (by simp [hf])
  | some a =>
    have hae : a.amount = none := by
      rw [getAmount, hf] at hnone
      simpa using hnone
    have hamem : a ∈ st := findAcct_mem hf
    cases hall : (st.all fun a => a.amount.isSome) with
    | false => rfl
    | true =>
      have := List.all_eq_true.mp hall a hamem
      rw [hae] at this
      simp at this

theorem run_eq_ok {fuel : Nat} {st : List Account} {r : Account} {rest : List Account}
    (hroot : rootCandidates st = r :: rest)
    (hall : ((aggregate fuel (normalizeRoot st r.guid) r.guid).all
      fun a => a.amount.isSome) = true) :
    runAggregation fuel st = .ok (aggregate fuel (normalizeRoot st r.guid) r.guid) := by
  simp [runAggregation, hroot, hall]

theorem run_eq_unresolved {fuel : Nat} {st : List Account} {r : Account}
    {rest : List Account} (hroot : rootCandidates st = r :: rest)
    (hfail : ((aggregate fuel (normalizeRoot st r.guid) r.guid).all
      fun a => a.amount.isSome) = false) :
    runAggregation fuel st = .error .unresolved := by
  simp [runAggregation, hroot, hfail]

theorem run_eq_noRoot {fuel : Nat} {st : List Account}
    (hroot : rootCandidates st = []) : runAggregation fuel st = .error .noRoot := by
  simp [runAggregation, hroot]

theorem run_ok_elim {fuel : Nat} {st out : List Account}
    (h : runAggregation fuel st = .ok out) :
    ∃ r rest, rootCandidates st = r :: rest ∧
      out = aggregate fuel (normalizeRoot st r.guid) r.guid ∧
      ((aggregate fuel (normalizeRoot st r.guid) r.guid).all
        fun a => a.amount.isSome) = true := by
  cases hroot : rootCandidates st with
  | nil => rw [run_eq_noRoot hroot] at h; cases h
  | cons r rest =>
    cases hall : ((aggregate fuel (normalizeRoot st r.guid) r.guid).all
        fun a => a.amount.isSome) with
    | false => rw [run_eq_unresolved hroot hall] at h; cases h
    | true =>
      rw [run_eq_ok hroot hall] at h
      exact ⟨r, rest, rfl, ((Except.ok.injEq _ _).mp h).symm, hall⟩

theorem mem_normalizeRoot {st : List Account} {rg : Nat} {a : Account}
    (ha : a ∈ normalizeRoot st rg) :
    ∃ b ∈ st, a = (if b.guid = rg then { b with parent := none } else b) := by
  rcases List.mem_map.mp ha with ⟨b, hb, hbe⟩
  subst hbe
  refine ⟨b, hb, ?_⟩
  by_cases h : b.guid = rg <;> simp [h]

theorem hasEdge_normalizeRoot_sub {st : List Account} {rg p c : Nat}
    (h : HasEdge (normalizeRoot st rg) p c) : HasEdge st p c := by
  rcases hasEdge_row h with ⟨a, ha, hag, hap⟩
  rcases mem_normalizeRoot ha with ⟨b, hb, hbe⟩
  by_cases hbrg : b.guid = rg
  · rw [hbe] at hap; simp [hbrg] at hap
  · rw [hbe] at hag hap
    simp [hbrg] at hag hap
    rw [← hag]
    exact row_hasEdge hb hap

theorem hasEdge_normalizeRoot_of_ne {st : List Account} {rg p c : Nat}
    (h : HasEdge st p c) (hc : c ≠ rg) : HasEdge (normalizeRoot st rg) p c := by
  rcases hasEdge_row h with ⟨a, ha, hag, hap⟩
  have hmem : (if a.guid = rg then { a with parent := none } else a) ∈
      normalizeRoot st rg := by
    rw [normalizeRoot]
    have : (fun x : Account => if x.guid == rg then { x with parent := none } else x) a
        = (if a.guid = rg then { a with parent := none } else a) := by
      by_cases hag2 : a.guid = rg <;> simp [hag2]
    rw [← this]
    exact List.mem_map_of_mem _ ha
  rw [if_neg (by rw [hag]; exact hc)] at hmem
  exact hag ▸ row_hasEdge hmem hap

theorem reaches_normalizeRoot_sub {st : List Account} {rg q x : Nat}
    (h : Reaches (normalizeRoot st rg) q x) : Reaches st q x := by
  induction h with
  | refl => exact Reaches.refl
  | step _ he ih => exact Reaches.step ih (hasEdge_normalizeRoot_sub he)

theorem reaches_normalizeRoot {st : List Account} {rg x : Nat}
    (h : Reaches st rg x) : Reaches (normalizeRoot st rg) rg x := by
  induction h with
  | refl => exact Reaches.refl
  | @step p c hp he ih =>
    by_cases hcrg : c = rg
    · rw [hcrg]; exact Reaches.refl
    · exact Reaches.step ih (hasEdge_normalizeRoot_of_ne he hcrg)

theorem childRank_normalizeRoot {st : List Account} {h : Nat → Nat} {rg : Nat}
    (hR : ChildRank st h) : ChildRank (normalizeRoot st rg) h := by
  intro c hc p hp hcp
  rcases mem_normalizeRoot hc with ⟨c0, hc0, hc0e⟩
  rcases mem_normalizeRoot hp with ⟨p0, hp0, hp0e⟩
  have hcg : c.guid = c0.guid := by
    rw [hc0e]; by_cases hx : c0.guid = rg <;> simp [hx]
  have hpg : p.guid = p0.guid := by
    rw [hp0e]; by_cases hx : p0.guid = rg <;> simp [hx]
  by_cases hcrg : c0.guid = rg
  · have hcn : c.parent = none := by rw [hc0e, if_pos hcrg]
    rw [hcn] at hcp; cases hcp
  · have hcparent : c.parent = c0.parent := by rw [hc0e, if_neg hcrg]
    have hlt := hR c0 hc0 p0 hp0 (by rw [← hcparent, hcp, hpg])
    rw [hcg, hpg]
    exact hlt

theorem sumAmounts_filter_isSome : ∀ (l : List Account),
    sumAmounts (l.filter fun a => a.amount.isSome) = sumAmounts l := by
  intro l
  induction l with
  | nil => rfl
  | cons a t ih =>
    cases h : a.amount with
    | none =>
      calc sumAmounts ((a :: t).filter fun a => a.amount.isSome)
          = sumAmounts (t.filter fun a => a.amount.isSome) := by
            rw [List.filter_cons, if_neg (by simp [h])]
        _ = sumAmounts t := ih
        _ = sumAmounts (a :: t) := by simp [sumAmounts, List.filterMap_cons, h]
    | some v =>
      calc sumAmounts ((a :: t).filter fun a => a.amount.isSome)
          = sumAmounts (a :: t.filter fun a => a.amount.isSome) := by
            rw [List.filter_cons, if_pos (by simp [h])]
        _ = v + sumAmounts (t.filter fun a => a.amount.isSome) := by
            simp [sumAmounts, List.filterMap_cons, h]
        _ = v + sumAmounts t := by rw [ih]
        _ = sumAmounts (a :: t) := by simp [sumAmounts, List.filterMap_cons, h]

/-! ### Claim theorems -/

/-- C7: an account with no children and an originally unknown balance
resolves to exactly 0 (the empty sum); the resolve step is total, it
raises no error. -/
theorem c7_childless_unknown_resolves_zero (fuel : Nat) (st : List Account) (g : Nat)
    (hg : getAmount st g = none) (hch : children st g = []) (hmem : g ∈ guids st) :
    getAmount (aggregate (fuel+1) st g) g = some 0 := by
  have hcg : childGuids st g = [] := by rw [childGuids, hch]; rfl
  rw [aggregate_succ_none hg, hcg]
  simp only [List.foldl_nil]
  rw [hch]
  exact getAmount_setAmount_self _ hmem

/-- C7 witness: a concrete childless unknown account resolves to 0. -/
theorem c7_witness :
    getAmount (aggregate 1 [⟨5, some 9, none⟩] 5) 5 = some 0 :=
  c7_childless_unknown_resolves_zero 0 _ 5 rfl rfl (by decide)

/-- C9: a seeded balance of exactly 0 counts as known — the known/unknown
test is `pd.isna`, so a known zero is returned unchanged and the account
is never recomputed from its children. -/
theorem c9_known_zero_not_recomputed (fuel : Nat) (st : List Account) (g : Nat)
    (hg : getAmount st g = some 0) : aggregate fuel st g = st :=
  aggregate_stop hg

/-- C9 witness: a concrete account with known zero balance is left
untouched even though it has a child. -/
theorem c9_witness :
    aggregate 3 [⟨1, some 9, some 0⟩, ⟨2, some 1, some 7⟩] 1
      = [⟨1, some 9, some 0⟩, ⟨2, some 1, some 7⟩] :=
  c9_known_zero_not_recomputed 3 _ 1 rfl

/-- C10: when a parent is recomputed, children whose balance is still
undefined after the recursion are skipped by the NaN-skipping sum — the
parent still receives a defined value, the sum over only the defined
children. -/
theorem c10_undefined_children_skipped (fuel : Nat) (st : List Account) (g : Nat)
    (hg : getAmount st g = none) (hmem : g ∈ guids st) :
    getAmount (aggregate (fuel+1) st g) g =
      some (sumAmounts
        ((children ((childGuids st g).foldl (aggregate fuel) st) g).filter
          (fun a => a.amount.isSome))) := by
  rw [aggregate_succ_none hg]
  have hmem1 : g ∈ guids ((childGuids st g).foldl (aggregate fuel) st) := by
    rw [guids_of_shape (shape_foldl_aggregate fuel _ st)]; exact hmem
  rw [getAmount_setAmount_self _ hmem1]
  rw [sumAmounts_filter_isSome]

/-- C10 witness: with recursion fuel exhausted one child stays undefined
and is skipped; the parent still gets the defined child's value. -/
theorem c10_witness :
    getAmount (aggregate 1 [⟨0, some 9, none⟩, ⟨1, some 0, some 5⟩, ⟨2, some 0, none⟩] 0) 0 =
      some (sumAmounts
        ((children ((childGuids [⟨0, some 9, none⟩, ⟨1, some 0, some 5⟩, ⟨2, some 0, none⟩] 0).foldl
            (aggregate 0) [⟨0, some 9, none⟩, ⟨1, some 0, some 5⟩, ⟨2, some 0, none⟩]) 0).filter
          (fun a => a.amount.isSome))) :=
  c10_undefined_children_skipped 0 _ 0 rfl (by decide)

/-- C5: an account whose balance is known before aggregation keeps exactly
its original value in the output, even when it has children. -/
theorem c5_known_balance_preserved (fuel : Nat) (st : List Account) (g : Nat) (v : Int)
    (out : List Account) (hg : getAmount st g = some v)
    (hrun : runAggregation fuel st = .ok out) : getAmount out g = some v := by
  rcases run_ok_elim hrun with ⟨r, rest, hroot, hout, hall⟩
  rw [hout]
  exact aggregate_known _ _ _ _ _ (by rw [getAmount_normalizeRoot]; exact hg)

/-- C5 witness: concrete run preserving a known balance. -/
theorem c5_witness :
    getAmount [⟨0, none, some 5⟩, ⟨1, some 0, some 5⟩] 1 = some 5 :=
  c5_known_balance_preserved 2 [⟨0, some 99, none⟩, ⟨1, some 0, some 5⟩] 1 5
    [⟨0, none, some 5⟩, ⟨1, some 0, some 5⟩] rfl rfl

/-- C4 (amended): root identification errors exactly when the candidate
selection is empty (`IndexError` on `.iloc[0]`); with one or more
candidates the first in table order is used and no multiplicity check is
performed. -/
theorem c4_amended_noroot_iff (fuel : Nat) (st : List Account) :
    runAggregation fuel st = .error .noRoot ↔ rootCandidates st = [] := by
  constructor
  · intro h
    cases hroot : rootCandidates st with
    | nil => rfl
    | cons r rest =>
      cases hall : ((aggregate fuel (normalizeRoot st r.guid) r.guid).all
          fun a => a.amount.isSome) with
      | true =>
        rw [run_eq_ok hroot hall] at h
        cases h
      | false =>
        rw [run_eq_unresolved hroot hall] at h
        injection h with h2
        cases h2
  · intro h
    exact run_eq_noRoot h

/-- C4 counterexample: two root candidates, yet the pipeline proceeds with
the first and returns a result instead of raising an integrity error. -/
theorem c4_counterexample_multiple_roots_proceed :
    (rootCandidates [⟨0, some 9, some 1⟩, ⟨1, some 9, some 2⟩]).length = 2 ∧
    runAggregation 1 [⟨0, some 9, some 1⟩, ⟨1, some 9, some 2⟩] =
      .ok [⟨0, none, some 1⟩, ⟨1, some 9, some 2⟩] := ⟨by decide, by rfl⟩

/-- C3: any input containing a cycle among unknown-balance accounts (a
nonempty set of unknown accounts each of whose parent lies in the set)
makes the pipeline raise an integrity error — either no root candidate
exists, or the cycle members stay unresolved and the post-aggregation
assert fires.  The embedded recursion is fuel-total, matching the source
observation that the walk never enters a cycle (cycle members are
unreachable from the root). -/
theorem c3_cycle_error (fuel : Nat) (st : List Account) (C : List Nat)
    (hN : (guids st).Nodup) (hC0 : C ≠ [])
    (hCcl : ∀ g ∈ C, ∃ a ∈ st, a.guid = g ∧ a.amount = none ∧
      ∃ p ∈ C, a.parent = some p) :
    ∃ e, runAggregation fuel st = .error e := by
  cases hroot : rootCandidates st with
  | nil => exact ⟨.noRoot, run_eq_noRoot hroot⟩
  | cons r rest =>
    have hspec := rootCandidates_spec hroot
    have hrC : r.guid ∉ C := by
      intro hrc
      rcases hCcl _ hrc with ⟨a, ha, hag, _, p, hpC, hap⟩
      rcases hCcl _ hpC with ⟨b, hb, hbg, _⟩
      have har : a = r := row_eq_of_guid hN ha hspec.1 hag
      exact hspec.2 b hb (by rw [hbg, ← hap, har])
    have havoid : ∀ x, Reaches (normalizeRoot st r.guid) r.guid x → x ∉ C := by
      intro x hx
      induction hx with
      | refl => exact hrC
      | @step p c hp he ih =>
        intro hcC
        rcases hCcl _ hcC with ⟨a, ha, hag, _, q, hqC, haq⟩
        have he' : HasEdge st p c := hasEdge_normalizeRoot_sub he
        rcases hasEdge_row he' with ⟨a2, ha2, ha2g, ha2p⟩
        have ha2a : a2 = a := row_eq_of_guid hN ha2 ha (by rw [ha2g, hag])
        have hap' : a.parent = some p := by rw [← ha2a]; exact ha2p
        rw [haq] at hap'
        have hqp : q = p := by injection hap'
        exact ih (hqp ▸ hqC)
    rcases List.exists_mem_of_ne_nil C hC0 with ⟨g0, hg0⟩
    rcases hCcl _ hg0 with ⟨a, ha, hag, hae, _⟩
    have hg0g : g0 ∈ guids st := hag ▸ List.mem_map_of_mem _ ha
    have hst_none : getAmount st g0 = none := by
      rw [← hag, getAmount_of_mem hN ha]; exact hae
    have h2_none : getAmount (aggregate fuel (normalizeRoot st r.guid) r.guid) g0 =
        none := by
      rw [aggregate_unreached _ _ _ _ (fun hr => (havoid g0 hr) hg0),
        getAmount_normalizeRoot]
      exact hst_none
    have hg0g2 : g0 ∈ guids (aggregate fuel (normalizeRoot st r.guid) r.guid) := by
      rw [guids_of_shape (shape_aggregate _ _ _), guids_normalizeRoot]
      exact hg0g
    exact ⟨.unresolved, run_eq_unresolved hroot (all_amounts_false hg0g2 h2_none)⟩

/-- C3 witness: a two-account unknown-balance cycle beside a known root
makes the pipeline error out. -/
theorem c3_witness :
    ∃ e, runAggregation 5 [⟨0, some 9, some 3⟩, ⟨1, some 2, none⟩, ⟨2, some 1, none⟩]
      = .error e :=
  c3_cycle_error 5 _ [1, 2] (by decide) (by decide) (by decide)

/-- C6 (amended): an account that is unreachable from the chosen root and
has an unknown balance stays unresolved, so the post-aggregation assert
raises the integrity error. -/
theorem c6_amended_unknown_orphan_errors (fuel : Nat) (st : List Account) (r : Account)
    (rest : List Account) (g : Nat)
    (hroot : rootCandidates st = r :: rest) (hg : g ∈ guids st)
    (hnone : getAmount st g = none) (horph : ¬ Reaches st r.guid g) :
    runAggregation fuel st = .error .unresolved := by
  have horph0 : ¬ Reaches (normalizeRoot st r.guid) r.guid g :=
    fun hr => horph (reaches_normalizeRoot_sub hr)
  have h2_none : getAmount (aggregate fuel (normalizeRoot st r.guid) r.guid) g =
      none := by
    rw [aggregate_unreached _ _ _ _ horph0, getAmount_normalizeRoot]
    exact hnone
  have hg2 : g ∈ guids (aggregate fuel (normalizeRoot st r.guid) r.guid) := by
    rw [guids_of_shape (shape_aggregate _ _ _), guids_normalizeRoot]
    exact hg
  exact run_eq_unresolved hroot (all_amounts_false hg2 h2_none)

/-- C6 amended witness: an unknown-balance orphan aborts the run. -/
theorem c6_amended_witness :
    runAggregation 1 [⟨0, some 9, some 3⟩, ⟨1, some 2, none⟩, ⟨2, some 1, some 4⟩] =
      .error .unresolved := by
  refine c6_amended_unknown_orphan_errors 1 _ ⟨0, some 9, some 3⟩ [] 1
    (by decide) (by decide) rfl ?_
  intro hr
  have haux : ∀ x,
      Reaches [⟨0, some 9, some 3⟩, ⟨1, some 2, none⟩, ⟨2, some 1, some 4⟩] 0 x →
        x = 0 := by
    intro x hx
    induction hx with
    | refl => rfl
    | @step p c hp he ih =>
      rw [ih] at he
      rcases hasEdge_row he with ⟨a, ha, hag, hap⟩
      simp at ha
      rcases ha with rfl | rfl | rfl <;> exact absurd hap (by decide)
  exact absurd (haux 1 hr) (by decide)

/-- C6 counterexample: accounts 1 and 2 are orphans (unreachable from root
0), yet because their balances are known the pipeline succeeds and
silently keeps them — no integrity error is raised. -/
theorem c6_counterexample_known_orphans_ok :
    rootCandidates [⟨0, some 9, none⟩, ⟨1, some 2, some 5⟩, ⟨2, some 1, some 7⟩]
        = [⟨0, some 9, none⟩] ∧
    (¬ Reaches [⟨0, some 9, none⟩, ⟨1, some 2, some 5⟩, ⟨2, some 1, some 7⟩] 0 1) ∧
    runAggregation 1 [⟨0, some 9, none⟩, ⟨1, some 2, some 5⟩, ⟨2, some 1, some 7⟩] =
      .ok [⟨0, none, some 0⟩, ⟨1, some 2, some 5⟩, ⟨2, some 1, some 7⟩] := by
  refine ⟨by decide, ?_, by rfl⟩
  intro hr
  have haux : ∀ x,
      Reaches [⟨0, some 9, none⟩, ⟨1, some 2, some 5⟩, ⟨2, some 1, some 7⟩] 0 x →
        x = 0 := by
    intro x hx
    induction hx with
    | refl => rfl
    | @step p c hp he ih =>
      rw [ih] at he
      rcases hasEdge_row he with ⟨a, ha, hag, hap⟩
      simp at ha
      rcases ha with rfl | rfl | rfl <;> exact absurd hap (by decide)
  exact absurd (haux 1 hr) (by decide)

/-- C1: conservation law.  On a well-formed account table (unique guids,
exactly one root candidate, acyclic parent/child relation, every account
reachable from the root) in which exactly the childless accounts carry
known balances, the pipeline succeeds and the root's resolved balance is
the sum of all originally-known (leaf) balances. -/
theorem c1_conservation (fuel : Nat) (st : List Account) (r : Account) (hk : Nat → Nat)
    (hN : (guids st).Nodup) (hroot : rootCandidates st = [r])
    (hR : ChildRank st hk) (hreach : ∀ a ∈ st, Reaches st r.guid a.guid)
    (hleaf : ∀ a ∈ st, (a.amount ≠ none ↔ childGuids st a.guid = []))
    (hfuel : hk r.guid < fuel) :
    ∃ out, runAggregation fuel st = .ok out ∧
      getAmount out r.guid = some (sumAmounts st) := by
  have hspec := rootCandidates_spec hroot
  have hrg : r.guid ∈ guids st := List.mem_map_of_mem _ hspec.1
  have hN0 : (guids (normalizeRoot st r.guid)).Nodup := by
    rw [guids_normalizeRoot]; exact hN
  have hR0 : ChildRank (normalizeRoot st r.guid) hk := childRank_normalizeRoot hR
  have hg0 : r.guid ∈ guids (normalizeRoot st r.guid) := by
    rw [guids_normalizeRoot]; exact hrg
  have hreach0 : ∀ x ∈ guids st, Reaches (normalizeRoot st r.guid) r.guid x := by
    intro x hx
    rcases List.mem_map.mp hx with ⟨a, ha, rfl⟩
    exact reaches_normalizeRoot (hreach a ha)
  have hU0 : ∀ x y, Reaches (normalizeRoot st r.guid) r.guid x →
      HasEdge (normalizeRoot st r.guid) x y →
      getAmount (normalizeRoot st r.guid) x ≠ none →
      getAmount (normalizeRoot st r.guid) y ≠ none := by
    intro x y _ he hxne
    exfalso
    rw [getAmount_normalizeRoot] at hxne
    have he' : HasEdge st x y := hasEdge_normalizeRoot_sub he
    cases hfx : findAcct st x with
    | none => rw [getAmount, hfx] at hxne; simp at hxne
    | some bx =>
      have hbxa : bx.amount ≠ none := by
        rw [getAmount, hfx] at hxne; simpa using hxne
      have hch : childGuids st bx.guid = [] := (hleaf bx (findAcct_mem hfx)).mp hbxa
      rw [findAcct_guid hfx] at hch
      exact absurd (mem_childGuids.mpr he') (by rw [hch]; exact List.not_mem_nil y)
  cases hgr : getAmount st r.guid with
  | some v =>
    -- degenerate well-formed case: the root is a known leaf, so the table
    -- is the single root row
    have hall_r : ∀ a ∈ st, a.guid = r.guid := by
      intro a ha
      rcases reaches_head (hreach a ha) with h | ⟨c, hce, _⟩
      · exact h
      · exfalso
        cases hfr : findAcct st r.guid with
        | none => rw [getAmount, hfr] at hgr; simp at hgr
        | some br =>
          have hbra : br.amount ≠ none := by
            rw [getAmount, hfr] at hgr
            simp only [Option.some_bind] at hgr
            rw [hgr]; simp
          have hch : childGuids st br.guid = [] := (hleaf br (findAcct_mem hfr)).mp hbra
          rw [findAcct_guid hfr] at hch
          exact absurd (mem_childGuids.mpr hce) (by rw [hch]; exact List.not_mem_nil c)
    have hst_single : st = [r] := by
      cases hst : st with
      | nil => rw [hst] at hspec; exact absurd hspec.1 (List.not_mem_nil r)
      | cons a t =>
        cases t with
        | nil =>
          have hra : r = a := by
            have := hspec.1
            rw [hst] at this
            simpa using this
          rw [hra]
        | cons b t2 =>
          exfalso
          have hag : a.guid = r.guid := hall_r a (by rw [hst]; simp)
          have hbg : b.guid = r.guid := hall_r b (by rw [hst]; simp)
          have hN2 : (guids (a :: b :: t2)).Nodup := by rw [← hst]; exact hN
          have hne : ¬ a.guid = b.guid := by
            simp [guids, List.nodup_cons] at hN2
            exact hN2.1.1
          exact hne (by rw [hag, hbg])
    have hra : r.amount = some v := by
      rw [hst_single] at hgr
      rw [getAmount, findAcct, List.find?_cons_of_pos _ (by simp)] at hgr
      simpa using hgr
    have h0amt : getAmount (normalizeRoot st r.guid) r.guid = some v := by
      rw [getAmount_normalizeRoot]; exact hgr
    have hagg : aggregate fuel (normalizeRoot st r.guid) r.guid =
        normalizeRoot st r.guid := aggregate_stop h0amt
    have hall : ((aggregate fuel (normalizeRoot st r.guid) r.guid).all
        fun a => a.amount.isSome) = true := by
      rw [hagg, hst_single]
      simp [normalizeRoot, hra]
    refine ⟨_, run_eq_ok hroot hall, ?_⟩
    rw [hagg, getAmount_normalizeRoot, hgr, hst_single]
    simp [sumAmounts, hra]
  | none =>
    obtain ⟨A, B, C⟩ :=
      aggregate_main hk fuel (normalizeRoot st r.guid) r.guid hN0 hR0 hg0 hfuel hU0
    have hst2sh : shape (aggregate fuel (normalizeRoot st r.guid) r.guid) =
        shape (normalizeRoot st r.guid) := shape_aggregate _ _ _
    have hN2 : (guids (aggregate fuel (normalizeRoot st r.guid) r.guid)).Nodup := by
      rw [guids_of_shape hst2sh]; exact hN0
    have hguids2 : guids (aggregate fuel (normalizeRoot st r.guid) r.guid) =
        guids st := by
      rw [guids_of_shape hst2sh, guids_normalizeRoot]
    have hall : ((aggregate fuel (normalizeRoot st r.guid) r.guid).all
        fun a => a.amount.isSome) = true := by
      rw [List.all_eq_true]
      intro a ha2
      have hag : a.guid ∈ guids st := by
        rw [← hguids2]; exact List.mem_map_of_mem _ ha2
      have hne := A a.guid (hreach0 a.guid hag)
      rw [getAmount_of_mem hN2 ha2] at hne
      exact Option.ne_none_iff_isSome.mp hne
    have h0gr : getAmount (normalizeRoot st r.guid) r.guid = none := by
      rw [getAmount_normalizeRoot]; exact hgr
    have hRK : ∀ x, Reaches (normalizeRoot st r.guid) r.guid x →
        KReaches (normalizeRoot st r.guid) r.guid x := by
      intro x hx
      induction hx with
      | refl => exact KReaches.refl
      | @step p c hp he ih =>
        refine KReaches.step ih ?_ he
        have hpe : HasEdge st p c := hasEdge_normalizeRoot_sub he
        have hpg : p ∈ guids (normalizeRoot st r.guid) := reaches_mem_guids hg0 hp
        rw [guids_normalizeRoot] at hpg
        cases hfp : findAcct st p with
        | none => exact absurd (findAcct_isSome.mpr hpg) (by simp [hfp])
        | some bp =>
          have hbpa : bp.amount = none := by
            by_contra hne
            have hch : childGuids st bp.guid = [] := (hleaf bp (findAcct_mem hfp)).mp hne
            rw [findAcct_guid hfp] at hch
            exact absurd (mem_childGuids.mpr hpe) (by rw [hch]; exact List.not_mem_nil c)
          rw [getAmount_normalizeRoot, getAmount, hfp]
          simp [hbpa]
    have hSchar : ∀ y, y ∈ guids (normalizeRoot st r.guid) ↔
        (KReaches (normalizeRoot st r.guid) r.guid y ∧
          y ∈ guids (normalizeRoot st r.guid)) := by
      intro y
      constructor
      · intro hy
        refine ⟨hRK y ?_, hy⟩
        rw [guids_normalizeRoot] at hy
        exact hreach0 y hy
      · exact fun hcc => hcc.2
    have hcons := C (guids (normalizeRoot st r.guid)) h0gr hN0 hSchar
    refine ⟨_, run_eq_ok hroot hall, ?_⟩
    rw [hcons]
    congr 1
    rw [sumAmounts_eq_guids_sum hN0, sumAmounts_normalizeRoot]

/-- C1 witness: the spec's example tree — root over {1, 2}, leaves
3 (100), 4 (50) under 1 and 5 (−200) under 2 — succeeds and the root gets
100 + 50 − 200 = −50, the sum of all known leaf balances. -/
theorem c1_witness :
    ∃ out, runAggregation 3
        [⟨0, some 99, none⟩, ⟨1, some 0, none⟩, ⟨2, some 0, none⟩,
         ⟨3, some 1, some 100⟩, ⟨4, some 1, some 50⟩, ⟨5, some 2, some (-200)⟩] =
          .ok out ∧
      getAmount out 0 = some (sumAmounts
        [⟨0, some 99, none⟩, ⟨1, some 0, none⟩, ⟨2, some 0, none⟩,
         ⟨3, some 1, some 100⟩, ⟨4, some 1, some 50⟩, ⟨5, some 2, some (-200)⟩]) := by
  refine c1_conservation 3 _ ⟨0, some 99, none⟩
    (fun g => if g = 0 then 2 else if g ≤ 2 then 1 else 0)
    (by decide) (by decide) (by decide) ?_ (by decide) (by decide)
  intro a ha
  fin_cases ha
  · exact Reaches.refl
  · exact @Reaches.step _ 0 0 _ Reaches.refl (by decide)
  · exact @Reaches.step _ 0 0 _ Reaches.refl (by decide)
  · exact @Reaches.step _ 0 1 _ (@Reaches.step _ 0 0 _ Reaches.refl (by decide)) (by decide)
  · exact @Reaches.step _ 0 1 _ (@Reaches.step _ 0 0 _ Reaches.refl (by decide)) (by decide)
  · exact @Reaches.step _ 0 2 _ (@Reaches.step _ 0 0 _ Reaches.refl (by decide)) (by decide)

/-- C2 (amended): on a well-formed account table in which no
unknown-balance account sits below a known-balance account (children of
known accounts are known), the pipeline succeeds, assigns a defined
balance to every account, and every originally-unknown account's balance
is the sum of its direct children's resolved balances. -/
theorem c2_amended_total_and_local_sums (fuel : Nat) (st : List Account) (r : Account)
    (hk : Nat → Nat) (hN : (guids st).Nodup) (hroot : rootCandidates st = [r])
    (hR : ChildRank st hk) (hreach : ∀ a ∈ st, Reaches st r.guid a.guid)
    (hKC : ∀ a ∈ st, ∀ b ∈ st, a.parent = some b.guid → b.amount ≠ none →
      a.amount ≠ none)
    (hfuel : hk r.guid < fuel) :
    ∃ out, runAggregation fuel st = .ok out ∧
      (∀ a ∈ st, (getAmount out a.guid).isSome) ∧
      (∀ a ∈ st, a.amount = none →
        getAmount out a.guid = some (sumAmounts (children out a.guid))) := by
  have hspec := rootCandidates_spec hroot
  have hrg : r.guid ∈ guids st := List.mem_map_of_mem _ hspec.1
  have hN0 : (guids (normalizeRoot st r.guid)).Nodup := by
    rw [guids_normalizeRoot]; exact hN
  have hR0 : ChildRank (normalizeRoot st r.guid) hk := childRank_normalizeRoot hR
  have hg0 : r.guid ∈ guids (normalizeRoot st r.guid) := by
    rw [guids_normalizeRoot]; exact hrg
  have hreach0 : ∀ x ∈ guids st, Reaches (normalizeRoot st r.guid) r.guid x := by
    intro x hx
    rcases List.mem_map.mp hx with ⟨a, ha, rfl⟩
    exact reaches_normalizeRoot (hreach a ha)
  have hU0 : ∀ x y, Reaches (normalizeRoot st r.guid) r.guid x →
      HasEdge (normalizeRoot st r.guid) x y →
      getAmount (normalizeRoot st r.guid) x ≠ none →
      getAmount (normalizeRoot st r.guid) y ≠ none := by
    intro x y _ he hxne
    rw [getAmount_normalizeRoot] at hxne ⊢
    have he' : HasEdge st x y := hasEdge_normalizeRoot_sub he
    rcases hasEdge_row he' with ⟨ay, hay, hayg, hayp⟩
    cases hfx : findAcct st x with
    | none => rw [getAmount, hfx] at hxne; simp at hxne
    | some bx =>
      have hbxa : bx.amount ≠ none := by
        rw [getAmount, hfx] at hxne; simpa using hxne
      have haya : ay.amount ≠ none :=
        hKC ay hay bx (findAcct_mem hfx) (by rw [hayp, findAcct_guid hfx]) hbxa
      rw [← hayg, getAmount_of_mem hN hay]
      exact haya
  obtain ⟨A, B, _⟩ :=
    aggregate_main hk fuel (normalizeRoot st r.guid) r.guid hN0 hR0 hg0 hfuel hU0
  have hst2sh : shape (aggregate fuel (normalizeRoot st r.guid) r.guid) =
      shape (normalizeRoot st r.guid) := shape_aggregate _ _ _
  have hN2 : (guids (aggregate fuel (normalizeRoot st r.guid) r.guid)).Nodup := by
    rw [guids_of_shape hst2sh]; exact hN0
  have hguids2 : guids (aggregate fuel (normalizeRoot st r.guid) r.guid) =
      guids st := by
    rw [guids_of_shape hst2sh, guids_normalizeRoot]
  have hall : ((aggregate fuel (normalizeRoot st r.guid) r.guid).all
      fun a => a.amount.isSome) = true := by
    rw [List.all_eq_true]
    intro a ha2
    have hag : a.guid ∈ guids st := by
      rw [← hguids2]; exact List.mem_map_of_mem _ ha2
    have hne := A a.guid (hreach0 a.guid hag)
    rw [getAmount_of_mem hN2 ha2] at hne
    exact Option.ne_none_iff_isSome.mp hne
  refine ⟨_, run_eq_ok hroot hall, ?_, ?_⟩
  · intro a ha
    have hag : a.guid ∈ guids st := List.mem_map_of_mem _ ha
    exact Option.ne_none_iff_isSome.mp (A a.guid (hreach0 a.guid hag))
  · intro a ha hae
    have hag : a.guid ∈ guids st := List.mem_map_of_mem _ ha
    have h0none : getAmount (normalizeRoot st r.guid) a.guid = none := by
      rw [getAmount_normalizeRoot, getAmount_of_mem hN ha]; exact hae
    rw [B a.guid (hreach0 a.guid hag) h0none]
    congr 1
    rw [sumAmounts_children hN2 a.guid, childGuids_of_shape hst2sh a.guid]

/-- C2 witness: the spec's example tree satisfies the amended hypotheses
(no unknown account below a known one), so every account resolves and
every unknown account carries the sum of its children. -/
theorem c2_amended_witness :
    ∃ out, runAggregation 4
        [⟨0, some 99, none⟩, ⟨1, some 0, none⟩, ⟨2, some 0, none⟩,
         ⟨3, some 1, some 100⟩, ⟨4, some 1, some 50⟩, ⟨5, some 2, some (-200)⟩] =
          .ok out ∧
      (∀ a ∈ ([⟨0, some 99, none⟩, ⟨1, some 0, none⟩, ⟨2, some 0, none⟩,
         ⟨3, some 1, some 100⟩, ⟨4, some 1, some 50⟩,
         ⟨5, some 2, some (-200)⟩] : List Account),
        (getAmount out a.guid).isSome) ∧
      (∀ a ∈ ([⟨0, some 99, none⟩, ⟨1, some 0, none⟩, ⟨2, some 0, none⟩,
         ⟨3, some 1, some 100⟩, ⟨4, some 1, some 50⟩,
         ⟨5, some 2, some (-200)⟩] : List Account),
        a.amount = none →
        getAmount out a.guid = some (sumAmounts (children out a.guid))) := by
  refine c2_amended_total_and_local_sums 4 _ ⟨0, some 99, none⟩
    (fun g => if g = 0 then 2 else if g ≤ 2 then 1 else 0)
    (by decide) (by decide) (by decide) ?_ (by decide) (by decide)
  intro a ha
  fin_cases ha
  · exact Reaches.refl
  · exact @Reaches.step _ 0 0 _ Reaches.refl (by decide)
  · exact @Reaches.step _ 0 0 _ Reaches.refl (by decide)
  · exact @Reaches.step _ 0 1 _ (@Reaches.step _ 0 0 _ Reaches.refl (by decide)) (by decide)
  · exact @Reaches.step _ 0 1 _ (@Reaches.step _ 0 0 _ Reaches.refl (by decide)) (by decide)
  · exact @Reaches.step _ 0 2 _ (@Reaches.step _ 0 0 _ Reaches.refl (by decide)) (by decide)

/-- C2 counterexample: a well-formed three-account tree (unique root 0,
acyclic, all reachable) where the unknown account 2 sits below the known
account 1.  The walk never reaches 2, the post-aggregation assert fires,
and no total mapping is produced — refuting totality for arbitrary
well-formed trees. -/
theorem c2_counterexample_unknown_below_known :
    (guids [⟨0, some 9, none⟩, ⟨1, some 0, some 5⟩, ⟨2, some 1, none⟩]).Nodup ∧
    rootCandidates [⟨0, some 9, none⟩, ⟨1, some 0, some 5⟩, ⟨2, some 1, none⟩] =
      [⟨0, some 9, none⟩] ∧
    ChildRank [⟨0, some 9, none⟩, ⟨1, some 0, some 5⟩, ⟨2, some 1, none⟩]
      (fun g => 2 - g) ∧
    Reaches [⟨0, some 9, none⟩, ⟨1, some 0, some 5⟩, ⟨2, some 1, none⟩] 0 1 ∧
    Reaches [⟨0, some 9, none⟩, ⟨1, some 0, some 5⟩, ⟨2, some 1, none⟩] 0 2 ∧
    runAggregation 3 [⟨0, some 9, none⟩, ⟨1, some 0, some 5⟩, ⟨2, some 1, none⟩] =
      .error .unresolved :=
  ⟨by decide, by decide, by decide,
    @Reaches.step _ 0 0 1 Reaches.refl (by decide),
    @Reaches.step _ 0 1 2 (@Reaches.step _ 0 0 1 Reaches.refl (by decide)) (by decide),
    by rfl⟩

/-! ### Second-run (idempotence) machinery -/

theorem filter_norm_head (sh : List (Nat × Option Nat)) (P : Nat × Option Nat → Bool)
    (rg : Nat) (rp : Option Nat) (rest : List (Nat × Option Nat))
    (hPnone : P (rg, none) = true) :
    sh.filter P = (rg, rp) :: rest →
    ∃ tl, (sh.map (fun pr => if pr.1 == rg then (pr.1, none) else pr)).filter P =
      (rg, none) :: tl := by
  induction sh with
  | nil => intro h; cases h
  | cons pr sh' ih =>
    intro hfil
    by_cases hprg : pr.1 = rg
    · have hcond : (if pr.1 == rg then (pr.1, (none : Option Nat)) else pr) =
          (rg, none) := by simp [hprg]
      rw [List.map_cons, hcond, List.filter_cons, if_pos hPnone]
      exact ⟨_, rfl⟩
    · have hcond : (if pr.1 == rg then (pr.1, (none : Option Nat)) else pr) = pr := by
        simp [hprg]
      rw [List.filter_cons] at hfil
      by_cases hP : P pr = true
      · rw [if_pos hP] at hfil
        have hhd : pr = (rg, rp) := ((List.cons.injEq _ _ _ _).mp hfil).1
        exact absurd (by rw [hhd]) hprg
      · rw [if_neg hP] at hfil
        rcases ih hfil with ⟨tl, htl⟩
        refine ⟨tl, ?_⟩
        rw [List.map_cons, hcond, List.filter_cons, if_neg hP, htl]

theorem shape_filter (v : List Account) (p : Account → Bool)
    (q : Nat × Option Nat → Bool) (hpq : ∀ a, p a = q (a.guid, a.parent)) :
    shape (v.filter p) = (shape v).filter q := by
  induction v with
  | nil => rfl
  | cons a t ih =>
    by_cases hp : p a = true
    · rw [List.filter_cons, if_pos hp]
      have hq : q (a.guid, a.parent) = true := (hpq a) ▸ hp
      show (a.guid, a.parent) :: shape (t.filter p) =
        ((a.guid, a.parent) :: shape t).filter q
      rw [List.filter_cons, if_pos hq, ih]
    · rw [List.filter_cons, if_neg hp]
      have hq : ¬ q (a.guid, a.parent) = true := by rw [← hpq]; exact hp
      show shape (t.filter p) = ((a.guid, a.parent) :: shape t).filter q
      rw [List.filter_cons, if_neg hq, ih]

theorem any_map_guid (u : List Account) (p : Nat → Bool) :
    (u.map (Prod.fst ∘ fun a => (a.guid, a.parent))).any p =
      u.any (fun b => p b.guid) := by
  induction u with
  | nil => rfl
  | cons a t ih => simp [List.any_cons, ih]

theorem rootCandidates_shape_eq (u : List Account) :
    shape (rootCandidates u) =
      (shape u).filter
        (fun pr => !((shape u).map Prod.fst).any fun g => some g == pr.2) := by
  apply shape_filter
  intro a
  simp only [shape, List.map_map]
  congr 1
  rw [any_map_guid]

theorem rootCandidates_after (st : List Account) (r : Account) (rest : List Account)
    (hroot : rootCandidates st = r :: rest) (s : List Account)
    (hsh : shape s = shape (normalizeRoot st r.guid)) :
    ∃ r2 rest2, rootCandidates s = r2 :: rest2 ∧ r2.guid = r.guid ∧
      r2.parent = none := by
  have h1 : (shape st).filter
      (fun pr => !((shape st).map Prod.fst).any fun g => some g == pr.2) =
        (r.guid, r.parent) :: shape rest := by
    rw [← rootCandidates_shape_eq, hroot]; rfl
  have hnorm : shape (normalizeRoot st r.guid) =
      (shape st).map (fun pr => if pr.1 == r.guid then (pr.1, none) else pr) := by
    rw [normalizeRoot, shape, shape, List.map_map, List.map_map]
    apply List.map_congr_left
    intro a _
    by_cases h : a.guid = r.guid <;> simp [Function.comp, h]
  have hfst : (shape s).map Prod.fst = (shape st).map Prod.fst := by
    rw [hsh, hnorm, List.map_map]
    apply List.map_congr_left
    intro pr _
    by_cases h : pr.1 = r.guid <;> simp [Function.comp, h]
  have hPnone : (fun pr : Nat × Option Nat =>
      !((shape st).map Prod.fst).any fun g => some g == pr.2) (r.guid, none) = true := by
    simp
  obtain ⟨tl, htl⟩ := filter_norm_head (shape st) _ r.guid r.parent (shape rest) hPnone h1
  have h2 : shape (rootCandidates s) = (r.guid, none) :: tl := by
    rw [rootCandidates_shape_eq, hfst, hsh, hnorm]
    exact htl
  cases hrc : rootCandidates s with
  | nil => rw [hrc] at h2; cases h2
  | cons r2 rest2 =>
    rw [hrc] at h2
    have hd : (r2.guid, r2.parent) = (r.guid, none) :=
      ((List.cons.injEq _ _ _ _).mp h2).1
    exact ⟨r2, rest2, rfl, congrArg Prod.fst hd, congrArg Prod.snd hd⟩

theorem normalizeRoot_id {u : List Account} {rg : Nat}
    (h : ∀ a ∈ u, a.guid = rg → a.parent = none) : normalizeRoot u rg = u := by
  rw [normalizeRoot]
  conv_rhs => rw [← List.map_id u]
  apply List.map_congr_left
  intro a ha
  by_cases hag : a.guid = rg
  · obtain ⟨g0, p0, m0⟩ := a
    have hp0 : p0 = none := h ⟨g0, p0, m0⟩ ha hag
    simp [hag, hp0]
  · simp [hag]

theorem parent_none_of_shape_normalizeRoot {u : List Account} {rg : Nat}
    {p : Option Nat} (h : (rg, p) ∈ shape (normalizeRoot u rg)) : p = none := by
  rcases List.mem_map.mp h with ⟨a', ha', he⟩
  rcases mem_normalizeRoot ha' with ⟨b, _, hbe⟩
  by_cases hbrg : b.guid = rg
  · rw [hbe, if_pos hbrg] at he
    exact (((Prod.mk.injEq _ _ _ _).mp he).2).symm
  · rw [hbe, if_neg hbrg] at he
    exact absurd ((Prod.mk.injEq _ _ _ _).mp he).1 hbrg

/-- C8: idempotence — feeding an output of the pipeline back in reproduces
that output exactly, for any recursion fuel on the second run. -/
theorem c8_idempotent (fuel1 fuel2 : Nat) (st out : List Account)
    (h1 : runAggregation fuel1 st = .ok out) : runAggregation fuel2 out = .ok out := by
  rcases run_ok_elim h1 with ⟨r, rest, hroot, hout, hall⟩
  have hsh : shape out = shape (normalizeRoot st r.guid) := by
    rw [hout]; exact shape_aggregate _ _ _
  obtain ⟨r2, rest2, hrc2, hg2, _⟩ := rootCandidates_after st r rest hroot out hsh
  have hrows : ∀ a ∈ out, a.guid = r2.guid → a.parent = none := by
    intro a ha hag
    have hpair : (a.guid, a.parent) ∈ shape out := List.mem_map_of_mem _ ha
    rw [hsh, hag, hg2] at hpair
    exact parent_none_of_shape_normalizeRoot hpair
  have hnorm_id : normalizeRoot out r2.guid = out := normalizeRoot_id hrows
  have hg2mem : r2.guid ∈ guids out := by
    have hm : r2 ∈ rootCandidates out := by rw [hrc2]; simp
    exact List.mem_map_of_mem _ (List.mem_filter.mp hm).1
  have hallout : (out.all fun a => a.amount.isSome) = true := by
    rw [hout]; exact hall
  obtain ⟨v, hv⟩ : ∃ v, getAmount out r2.guid = some v := by
    cases hf : findAcct out r2.guid with
    | none => exact absurd (findAcct_isSome.mpr hg2mem) (by simp [hf])
    | some a =>
      have hmem := findAcct_mem hf
      have hiS := List.all_eq_true.mp hallout a hmem
      cases ham : a.amount with
      | none => rw [ham] at hiS; simp at hiS
      | some v => exact ⟨v, by rw [getAmount, hf]; simpa using ham⟩
  have hagg2 : aggregate fuel2 (normalizeRoot out r2.guid) r2.guid = out := by
    rw [hnorm_id]
    exact aggregate_stop hv
  have hall2 : ((aggregate fuel2 (normalizeRoot out r2.guid) r2.guid).all
      fun a => a.amount.isSome) = true := by
    rw [hagg2]; exact hallout
  rw [run_eq_ok hrc2 hall2, hagg2]

/-- C8 witness: re-running the pipeline on a concrete first-run output
reproduces it. -/
theorem c8_witness :
    runAggregation 2 [⟨0, none, some 5⟩, ⟨1, some 0, some 5⟩] =
      .ok [⟨0, none, some 5⟩, ⟨1, some 0, some 5⟩] :=
  c8_idempotent 2 2 [⟨0, some 99, none⟩, ⟨1, some 0, some 5⟩] _ (by rfl)
